import Mathlib

/-!
# Verification of the cfgn-wods list view and its virtualization engine

Shallow embedding of the wod-tracker React application:
* `getColumnCount`, row partitioning and row slicing from
  `src/wod-tracker/src/components/WodList.tsx`;
* the search filter from `src/wod-tracker/src/components/Dashboard.tsx`;
* the windowed virtualization engine (size cache, offsets, visible window),
  which lives in the third-party `@tanstack/react-virtual` library and is not
  part of this repository's sources; those parts are modelled from the
  specification (each such definition says so in its doc comment).

Strings are embedded as `List Char`; pixel heights and offsets as `Nat`
(except the raw measurement event, which may report a non-positive value and
is embedded as `Int`).
-/

namespace WodTracker

/-- An item of the collection: `{ date, content }` from `src/types`. -/
structure Wod where
  date : List Char
  content : List Char
deriving DecidableEq

/-! ## Layout grid planner (from `WodList.tsx`, lines 18-23) -/

/-- `getColumnCount(width)` from `WodList.tsx`:
`width >= 1280 → 5; width >= 1024 → 3; width >= 768 → 2; else 1`. -/
def getColumnCount (width : Nat) : Nat :=
  if width ≥ 1280 then 5
  else if width ≥ 1024 then 3
  else if width ≥ 768 then 2
  else 1

/-- `rowCount = Math.ceil(wods.length / columnCount)` from `WodList.tsx`,
line 30, written with natural division (`c ≥ 1` in every call site). -/
def rowCountOf (n c : Nat) : Nat := (n + c - 1) / c

/-- Row `i` of the partition: `wods.slice(i*columnCount, i*columnCount +
columnCount)` from `WodList.tsx`, lines 84-85. -/
def rowSlice (items : List α) (c i : Nat) : List α :=
  (items.drop (i * c)).take c

/-- The full row partition the list view renders over: one `rowSlice` per
row index `0 .. rowCount-1`. -/
def partitionRows (items : List α) (c : Nat) : List (List α) :=
  (List.range (rowCountOf items.length c)).map (rowSlice items c)

/-! ## Size cache and virtualization engine.
The engine is the `@tanstack/react-virtual` dependency, configured in
`WodList.tsx` lines 32-40 (`estimateSize: () => 300`, `overscan: 3`); the
library itself is not in this repository, so its behaviour is modelled from
the specification (§4.3, §4.4). -/

/-- The fixed estimate, `estimateSize: () => 300` in `WodList.tsx`. -/
def estimateSize : Nat := 300

/-- The fixed overscan, `overscan: 3` in `WodList.tsx`. -/
def overscanCount : Nat := 3

/-- Modelled from the spec (§4.3 Size Cache): a mapping from row index to
the best-known height; `none` means unmeasured. -/
structure SizeCache where
  measured : Nat → Option Nat

/-- Modelled from the spec: `get(rowIndex)` returns the measured height
where one exists, else the estimate. -/
def SizeCache.get (sc : SizeCache) (i : Nat) : Nat :=
  (sc.measured i).getD estimateSize

/-- Modelled from the spec: `set(rowIndex, height)` marks the row measured. -/
def SizeCache.set (sc : SizeCache) (i h : Nat) : SizeCache :=
  ⟨fun j => if j = i then some h else sc.measured j⟩

/-- Modelled from the spec: `invalidateAll()` clears every entry. -/
def SizeCache.invalidateAll (_sc : SizeCache) : SizeCache :=
  ⟨fun _ => none⟩

/-- The measurement adapter from `WodList.tsx` lines 37-39: the observed
DOM height plus 16px for the inter-row gap. -/
def measuredHeightOf (domHeight : Int) : Int := domHeight + 16

/-- Modelled from the spec (§7 Invalid geometry): the measurement path
discards a reported height ≤ 0 and retains the previous cached value;
a positive height is written into the cache. -/
def SizeCache.record (sc : SizeCache) (i : Nat) (h : Int) : SizeCache :=
  if h ≤ 0 then sc else sc.set i h.toNat

/-- Modelled from the spec (§4.4): cumulative offset of row `i` is the
running sum of the heights of rows `0 .. i-1`. -/
def offsetOf (h : Nat → Nat) (i : Nat) : Nat :=
  ((List.range i).map h).sum

/-- Modelled from the spec (§4.4): `totalHeight` is the cumulative offset
after the last row. -/
def totalSize (h : Nat → Nat) (rc : Nat) : Nat := offsetOf h rc

/-- Least `i < bound` satisfying `p` (and `bound` when no such `i` exists). -/
def leastSuch (p : Nat → Bool) : Nat → Nat
  | 0 => 0
  | n + 1 =>
    if leastSuch p n < n then leastSuch p n
    else if p n then n else n + 1

/-- Modelled from the spec (§4.4): `startRowIndex` = smallest `i` with
`offset(i) + height(i) > scrollOffset`, clamped into the row range, minus
`overscanCount` (clamped to 0 by natural subtraction). -/
def startIdx (h : Nat → Nat) (rc so : Nat) : Nat :=
  min (leastSuch (fun i => decide (so < offsetOf h i + h i)) rc) (rc - 1)
    - overscanCount

/-- Modelled from the spec (§4.4): `endRowIndex` = smallest `i` with
`offset(i) ≥ scrollOffset + viewportHeight`, plus `overscanCount`, clamped
to `rowCount - 1`. -/
def endIdx (h : Nat → Nat) (rc so vh : Nat) : Nat :=
  min (leastSuch (fun i => decide (so + vh ≤ offsetOf h i)) rc + overscanCount)
    (rc - 1)

/-- Modelled from the spec (§4.4 edge cases): the visible window as a list
of row indices; empty when `rowCount = 0`. -/
def getVirtualItems (h : Nat → Nat) (rc so vh : Nat) : List Nat :=
  if rc = 0 then []
  else List.range' (startIdx h rc so) (endIdx h rc so vh + 1 - startIdx h rc so)

/-- Modelled from the spec (§2, §4.5) and `WodList.tsx` lines 42-45: a
`columnCount` change (a viewport-width change crossing a breakpoint)
invalidates the entire size cache. -/
structure EngineState where
  columnCount : Nat
  cache : SizeCache

/-- Modelled from the spec (§4.5 layout invalidation protocol): apply a new
viewport width; when the derived `columnCount` differs from the current one
the whole cache is invalidated. -/
def applyWidthChange (s : EngineState) (width : Nat) : EngineState :=
  if getColumnCount width ≠ s.columnCount then
    ⟨getColumnCount width, s.cache.invalidateAll⟩
  else s

/-! ## List-view rendering (from `WodList.tsx` and the plain variant) -/

/-- The rows the virtualized list view materializes: the empty-collection
branch of `WodList.tsx` (lines 47-69) renders no rows; otherwise one
`rowSlice` per virtual row index. -/
def renderedRows (wods : List Wod) (width : Nat) (h : Nat → Nat)
    (so vh : Nat) : List (List Wod) :=
  if wods.length = 0 then []
  else
    (getVirtualItems h (rowCountOf wods.length (getColumnCount width)) so vh).map
      (rowSlice wods (getColumnCount width))

/-- The flat item sequence the non-virtualized grid variant
(`src/unnamed/part_001`, lines 29-36) maps over: the list itself, in order. -/
def flatGridItems (wods : List Wod) : List Wod := wods

/-! ## Search filter (from `Dashboard.tsx`, lines 19-28) -/

/-- Embeds the JS test `!term.trim()`: true iff every character is
whitespace (in particular for the empty term). -/
def isWhitespaceOnly (s : List Char) : Bool := s.all Char.isWhitespace

/-- Embeds `needle.isPrefixOf hay` for the substring search: `hay` starts
with `needle`. -/
def leadsWith : List Char → List Char → Bool
  | [], _ => true
  | _ :: _, [] => false
  | a :: as, b :: bs => a == b && leadsWith as bs

/-- Embeds JS `hay.includes(needle)`: `needle` occurs contiguously in
`hay`. -/
def containsSeq (hay needle : List Char) : Bool :=
  leadsWith needle hay ||
    match hay with
    | [] => false
    | _ :: t => containsSeq t needle

/-- Embeds `str.toLowerCase()`. -/
def toLowerStr (s : List Char) : List Char := s.map Char.toLower

/-- `filteredWods` from `Dashboard.tsx` lines 19-28: return the list
unchanged when the (debounced) term trims to empty, else keep the records
whose lowercased content includes the lowercased term. -/
def filteredWods (wods : List Wod) (term : List Char) : List Wod :=
  if isWhitespaceOnly term then wods
  else
    wods.filter (fun w => containsSeq (toLowerStr w.content) (toLowerStr term))

/-- Spec-side notion of "contains as a substring": some contiguous run of
`hay` equals `needle`. -/
def SubstrOf (needle hay : List Char) : Prop :=
  ∃ s t, s ++ needle ++ t = hay

/-! ## Helper lemmas -/

theorem one_le_getColumnCount (w : Nat) : 1 ≤ getColumnCount w := by
  unfold getColumnCount
  split <;> [skip; split <;> [skip; split]] <;> omega

theorem rowCountOf_zero (c : Nat) : rowCountOf 0 c = 0 := by
  unfold rowCountOf
  rcases c with _ | c
  · rfl
  · exact Nat.div_eq_of_lt (by omega)

theorem rowCountOf_rec (n c : Nat) (hc : 1 ≤ c) (hn : 1 ≤ n) :
    rowCountOf n c = rowCountOf (n - c) c + 1 := by
  unfold rowCountOf
  rcases Nat.le_total n c with h | h
  · have h1 : n - c = 0 := by omega
    have h2 : n + c - 1 = (n - 1) + c := by omega
    have h3 : (n - 1) / c = 0 := Nat.div_eq_of_lt (by omega)
    have h4 : (0 + c - 1) / c = 0 := Nat.div_eq_of_lt (by omega)
    rw [h1, h2, Nat.add_div_right _ (by omega : 0 < c)]
    omega
  · have h2 : n + c - 1 = (n - c + c - 1) + c := by omega
    rw [h2, Nat.add_div_right _ (by omega : 0 < c)]

theorem rowCountOf_ceil (n c k : Nat) (hc : 1 ≤ c) :
    n ≤ k * c ↔ rowCountOf n c ≤ k := by
  have h2 : (n + c - 1) / c < k + 1 ↔ n + c - 1 < (k + 1) * c :=
    Nat.div_lt_iff_lt_mul (by omega)
  have h3 : (k + 1) * c = k * c + c := Nat.succ_mul k c
  unfold rowCountOf
  constructor
  · intro h
    have h4 : n + c - 1 < (k + 1) * c := by rw [h3]; omega
    have h5 := h2.mpr h4
    omega
  · intro h
    have h4 := h2.mp (by omega)
    rw [h3] at h4
    omega

theorem rowSlice_length (items : List α) (c i : Nat) :
    (rowSlice items c i).length = min c (items.length - i * c) := by
  unfold rowSlice
  rw [List.length_take, List.length_drop]

theorem partitionRows_length (items : List α) (c : Nat) :
    (partitionRows items c).length = rowCountOf items.length c := by
  unfold partitionRows
  rw [List.length_map, List.length_range]

theorem partitionRows_nil (c : Nat) : partitionRows ([] : List α) c = [] := by
  unfold partitionRows
  simp [rowCountOf_zero]

theorem partitionRows_eq_cons (items : List α) (c : Nat) (hc : 1 ≤ c)
    (hne : items ≠ []) :
    partitionRows items c = items.take c :: partitionRows (items.drop c) c := by
  have hlen : 1 ≤ items.length := List.length_pos.mpr hne
  unfold partitionRows
  rw [List.length_drop, rowCountOf_rec items.length c hc hlen,
    List.range_succ_eq_map, List.map_cons, List.map_map]
  congr 1
  · show rowSlice items c 0 = items.take c
    unfold rowSlice
    simp
  · apply List.map_congr_left
    intro i _
    show rowSlice items c (i + 1) = rowSlice (items.drop c) c i
    unfold rowSlice
    rw [List.drop_drop]
    have h3 : (i + 1) * c = c + i * c := by
      rw [Nat.succ_mul, Nat.add_comm]
    rw [h3]

theorem flatten_partitionRows (c : Nat) (hc : 1 ≤ c) :
    ∀ (n : Nat) (items : List α), items.length ≤ n →
      (partitionRows items c).flatten = items := by
  intro n
  induction n with
  | zero =>
    intro items h
    have : items = [] := List.eq_nil_of_length_eq_zero (by omega)
    subst this
    rw [partitionRows_nil]
    rfl
  | succ n ih =>
    intro items h
    by_cases hne : items = []
    · subst hne
      rw [partitionRows_nil]
      rfl
    · have hlen : 1 ≤ items.length := List.length_pos.mpr hne
      rw [partitionRows_eq_cons items c hc hne, List.flatten_cons,
        ih (items.drop c) (by rw [List.length_drop]; omega),
        List.take_append_drop]

theorem leastSuch_le (p : Nat → Bool) (b : Nat) : leastSuch p b ≤ b := by
  induction b with
  | zero => simp [leastSuch]
  | succ n ih =>
    unfold leastSuch
    split_ifs <;> omega

theorem leastSuch_not (p : Nat → Bool) (b : Nat) :
    ∀ i, i < leastSuch p b → p i = false := by
  induction b with
  | zero => intro i h; simp [leastSuch] at h
  | succ n ih =>
    intro i h
    unfold leastSuch at h
    by_cases h1 : leastSuch p n < n
    · rw [if_pos h1] at h
      exact ih i h
    · rw [if_neg h1] at h
      by_cases h2 : p n = true
      · rw [if_pos h2] at h
        exact ih i (by omega)
      · rw [if_neg h2] at h
        rcases Nat.lt_or_ge i n with h3 | h3
        · exact ih i (by omega)
        · have h4 : i = n := by omega
          subst h4
          simpa using h2

theorem leastSuch_spec (p : Nat → Bool) (b : Nat) (h : leastSuch p b < b) :
    p (leastSuch p b) = true := by
  induction b with
  | zero => omega
  | succ n ih =>
    unfold leastSuch at h ⊢
    by_cases h1 : leastSuch p n < n
    · rw [if_pos h1] at h ⊢
      exact ih h1
    · rw [if_neg h1] at h ⊢
      by_cases h2 : p n = true
      · rw [if_pos h2] at h ⊢
        exact h2
      · rw [if_neg h2] at h ⊢
        omega

theorem offsetOf_zero (h : Nat → Nat) : offsetOf h 0 = 0 := rfl

theorem offsetOf_succ (h : Nat → Nat) (i : Nat) :
    offsetOf h (i + 1) = offsetOf h i + h i := by
  unfold offsetOf
  rw [List.range_succ, List.map_append, List.sum_append]
  simp

theorem offsetOf_mono (h : Nat → Nat) {i j : Nat} (hij : i ≤ j) :
    offsetOf h i ≤ offsetOf h j := by
  induction j, hij using Nat.le_induction with
  | base => exact le_rfl
  | succ j hj ih =>
    rw [offsetOf_succ]
    omega

theorem startIdx_offset_le (h : Nat → Nat) (rc so : Nat) :
    offsetOf h (startIdx h rc so) ≤ so := by
  unfold startIdx
  set p := fun i => decide (so < offsetOf h i + h i) with hp
  set j1 := min (leastSuch p rc) (rc - 1) with hj1
  have hle : j1 - overscanCount ≤ j1 := Nat.sub_le _ _
  refine le_trans (offsetOf_mono h hle) ?_
  rcases Nat.eq_zero_or_pos j1 with h0 | h0
  · rw [h0, offsetOf_zero]
    exact Nat.zero_le so
  · have hlt : j1 - 1 < leastSuch p rc := by
      have : j1 ≤ leastSuch p rc := Nat.min_le_left _ _
      omega
    have hfalse := leastSuch_not p rc (j1 - 1) hlt
    rw [hp] at hfalse
    have hnot : ¬ (so < offsetOf h (j1 - 1) + h (j1 - 1)) :=
      of_decide_eq_false hfalse
    have hsucc : j1 - 1 + 1 = j1 := by omega
    rw [← hsucc, offsetOf_succ]
    omega

theorem endIdx_offset_ge (h : Nat → Nat) (rc so vh : Nat) (hrc : 1 ≤ rc) :
    min (so + vh) (totalSize h rc) ≤
      offsetOf h (endIdx h rc so vh) + h (endIdx h rc so vh) := by
  unfold endIdx
  set q := fun i => decide (so + vh ≤ offsetOf h i) with hq
  set k0 := leastSuch q rc with hk0
  rcases Nat.lt_or_ge k0 rc with hlt | hge
  · have htrue := leastSuch_spec q rc hlt
    rw [hq] at htrue
    have hcov : so + vh ≤ offsetOf h k0 := of_decide_eq_true htrue
    have he : k0 ≤ min (k0 + overscanCount) (rc - 1) :=
      le_min (Nat.le_add_right _ _) (by omega)
    have hmono : offsetOf h k0 ≤ offsetOf h (min (k0 + overscanCount) (rc - 1)) :=
      offsetOf_mono h he
    have := Nat.min_le_left (so + vh) (totalSize h rc)
    omega
  · have hk : k0 = rc := le_antisymm (leastSuch_le q rc) hge
    have he : min (k0 + overscanCount) (rc - 1) = rc - 1 :=
      Nat.min_eq_right (by omega)
    rw [he]
    have hsucc : rc - 1 + 1 = rc := by omega
    have htot : offsetOf h (rc - 1) + h (rc - 1) = totalSize h rc := by
      unfold totalSize
      rw [← offsetOf_succ, hsucc]
    have := Nat.min_le_right (so + vh) (totalSize h rc)
    omega

/-! ### C1: the row partition -/

/-- C1: for `c ≥ 1` the partition has `ceil(N/c)` rows (`rowCountOf` is the
ceiling of `N/c`, characterized by its Galois property), row `i` is the
slice `[i*c, min((i+1)*c, N))` so it has `min c (N - i*c)` items — exactly
`c` for every row but possibly the last — and concatenating the rows in
order reproduces the item sequence exactly. -/
theorem c1_partition_round_trip {α : Type} (c : Nat) (hc : 1 ≤ c)
    (items : List α) :
    (partitionRows items c).length = rowCountOf items.length c ∧
    (∀ k, items.length ≤ k * c ↔ rowCountOf items.length c ≤ k) ∧
    (∀ i, (rowSlice items c i).length = min c (items.length - i * c)) ∧
    (∀ i, i + 1 < rowCountOf items.length c →
      (rowSlice items c i).length = c) ∧
    (partitionRows items c).flatten = items := by
  refine ⟨partitionRows_length items c,
    fun k => rowCountOf_ceil items.length c k hc,
    fun i => rowSlice_length items c i, ?_,
    flatten_partitionRows c hc items.length items le_rfl⟩
  intro i hi
  rw [rowSlice_length]
  have h1 : ¬ (rowCountOf items.length c ≤ i + 1) := by omega
  have h2 : ¬ (items.length ≤ (i + 1) * c) := fun h =>
    h1 ((rowCountOf_ceil items.length c (i + 1) hc).mp h)
  have h3 : (i + 1) * c = i * c + c := Nat.succ_mul i c
  omega

/-- C1 witness: three items in two columns — two rows, round trip exact. -/
theorem c1_partition_round_trip_witness :
    1 ≤ 2 ∧ (partitionRows [0, 1, 2] 2).flatten = [0, 1, 2] :=
  ⟨by decide, (c1_partition_round_trip 2 (by decide) [0, 1, 2]).2.2.2.2⟩

/-! ### C3: window coverage -/

/-- C3 (amended): for every height assignment, `rowCount ≥ 1`,
`viewportHeight` and `scrollOffset ≤ totalHeight`, the window
`[startIdx, endIdx]` covers the viewport extent truncated at the total
height: its cumulative offset range starts at or before `scrollOffset` and
ends at or after `min (scrollOffset + viewportHeight) totalHeight` (when
the viewport extends past the end of the content the window is clamped to
the last rows and covers up to `totalHeight` only). -/
theorem c3_window_coverage (h : Nat → Nat) (rc so vh : Nat) (hrc : 1 ≤ rc)
    (_hso : so ≤ totalSize h rc) :
    offsetOf h (startIdx h rc so) ≤ so ∧
    min (so + vh) (totalSize h rc) ≤
      offsetOf h (endIdx h rc so vh) + h (endIdx h rc so vh) :=
  ⟨startIdx_offset_le h rc so, endIdx_offset_ge h rc so vh hrc⟩

/-- C3 witness: two rows of height 300, viewport `[100, 350]`. -/
theorem c3_window_coverage_witness :
    1 ≤ 2 ∧ 100 ≤ totalSize (fun _ => 300) 2 ∧
    (offsetOf (fun _ => 300) (startIdx (fun _ => 300) 2 100) ≤ 100 ∧
      min (100 + 250) (totalSize (fun _ => 300) 2) ≤
        offsetOf (fun _ => 300) (endIdx (fun _ => 300) 2 100 250) + 300) :=
  ⟨by decide, by decide,
    c3_window_coverage (fun _ => 300) 2 100 250 (by decide) (by decide)⟩

/-- C3 counterexample to the claim as stated: one row of height 300,
`scrollOffset = 300` (within `[0, totalHeight]`), `viewportHeight = 100`.
The window is the single row `[0, 0]`; its offset range ends at
`offset(0) + height(0) = 300`, which does not reach
`scrollOffset + viewportHeight = 400`, so the window does not fully
contain `[300, 400]`. -/
theorem c3_window_coverage_cex :
    300 ≤ totalSize (fun _ => 300) 1 ∧
    startIdx (fun _ => 300) 1 300 = 0 ∧
    endIdx (fun _ => 300) 1 300 100 = 0 ∧
    ¬ (300 + 100 ≤
        offsetOf (fun _ => 300) (endIdx (fun _ => 300) 1 300 100) + 300) := by
  decide

/-! ### C4: total height -/

theorem sum_range_update (rc i newh : Nat) (f : Nat → Nat) (hi : i < rc) :
    ((List.range rc).map (fun j => if j = i then newh else f j)).sum + f i
      = ((List.range rc).map f).sum + newh := by
  induction rc with
  | zero => omega
  | succ n ih =>
    rw [List.range_succ, List.map_append, List.map_append, List.sum_append,
      List.sum_append]
    simp only [List.map_cons, List.map_nil, List.sum_cons, List.sum_nil]
    by_cases h1 : i = n
    · subst h1
      have heq : (List.range i).map (fun j => if j = i then newh else f j)
          = (List.range i).map f := by
        apply List.map_congr_left
        intro j hj
        rw [List.mem_range] at hj
        rw [if_neg (by omega)]
      rw [heq, if_pos rfl]
      omega
    · have h3 := ih (by omega)
      rw [if_neg (fun hh => h1 hh.symm)]
      omega

/-- C4: `totalSize` is exactly the sum over all row indices of the cached
height (measured where present, else the estimate); writing one measurement
at row `i < rowCount` changes the total by exactly the difference between
the new height and the previous cached value; re-writing the same
measurement (a re-render without a new measurement) leaves the total
unchanged. -/
theorem c4_total_height (sc : SizeCache) (rc i newh : Nat) (hi : i < rc) :
    totalSize sc.get rc = ((List.range rc).map sc.get).sum ∧
    totalSize (sc.set i newh).get rc + sc.get i
      = totalSize sc.get rc + newh ∧
    totalSize ((sc.set i newh).set i newh).get rc
      = totalSize (sc.set i newh).get rc := by
  have hget : (sc.set i newh).get = fun j => if j = i then newh else sc.get j := by
    funext j
    by_cases h : j = i <;> simp [SizeCache.get, SizeCache.set, h]
  have hset2 : ((sc.set i newh).set i newh).get = (sc.set i newh).get := by
    funext j
    by_cases h : j = i <;> simp [SizeCache.get, SizeCache.set, h]
  refine ⟨rfl, ?_, by rw [hset2]⟩
  show offsetOf (sc.set i newh).get rc + sc.get i = offsetOf sc.get rc + newh
  rw [hget]
  exact sum_range_update rc i newh sc.get hi

/-- C4 witness: ten rows, all estimated at 300 (total 3000); row 7 measured
at 340 moves the total to 3040, a delta of exactly 40. -/
theorem c4_total_height_witness :
    7 < 10 ∧
    totalSize (⟨fun _ => none⟩ : SizeCache).get 10 = 3000 ∧
    totalSize ((⟨fun _ => none⟩ : SizeCache).set 7 340).get 10 = 3040 ∧
    totalSize ((⟨fun _ => none⟩ : SizeCache).set 7 340).get 10 +
        (⟨fun _ => none⟩ : SizeCache).get 7
      = totalSize (⟨fun _ => none⟩ : SizeCache).get 10 + 340 :=
  ⟨by decide, by decide, by decide,
    (c4_total_height ⟨fun _ => none⟩ 10 7 340 (by decide)).2.1⟩

/-! ### C5 and C6: the breakpoint table and its monotonicity -/

/-- C5: `getColumnCount` realizes exactly the breakpoint table
(width≥1280→5, width≥1024→3, width≥768→2, else 1), in particular
`getColumnCount 1400 = 5` and `getColumnCount 900 = 2`, and the result is
always ≥ 1. -/
theorem c5_column_table (w : Nat) :
    (1280 ≤ w → getColumnCount w = 5) ∧
    (1024 ≤ w → w < 1280 → getColumnCount w = 3) ∧
    (768 ≤ w → w < 1024 → getColumnCount w = 2) ∧
    (w < 768 → getColumnCount w = 1) ∧
    getColumnCount 1400 = 5 ∧ getColumnCount 900 = 2 ∧
    1 ≤ getColumnCount w := by
  refine ⟨?_, ?_, ?_, ?_, by decide, by decide, one_le_getColumnCount w⟩ <;>
    · intros
      unfold getColumnCount
      split_ifs <;> omega

/-- C5 witness at a concrete width. -/
theorem c5_column_table_witness :
    (1280 ≤ 1400 → getColumnCount 1400 = 5) ∧ 1 ≤ getColumnCount 1400 :=
  ⟨(c5_column_table 1400).1, (c5_column_table 1400).2.2.2.2.2.2⟩

/-- C6: `getColumnCount` is monotone non-decreasing in the width. -/
theorem c6_column_monotone (w₁ w₂ : Nat) (h : w₁ ≤ w₂) :
    getColumnCount w₁ ≤ getColumnCount w₂ := by
  unfold getColumnCount
  split_ifs <;> omega

/-- C6 witness: monotone across the 768 breakpoint. -/
theorem c6_column_monotone_witness :
    700 ≤ 900 ∧ getColumnCount 700 ≤ getColumnCount 900 :=
  ⟨by decide, c6_column_monotone 700 900 (by decide)⟩

/-! ### C2: full cache invalidation on a columnCount change -/

/-- C2: when a viewport-width change yields a different `columnCount`, the
whole size cache is invalidated: afterwards every row index is unmeasured
and reads back the estimate, so no height measured under the previous
`columnCount` survives; the state carries the new `columnCount`. -/
theorem c2_invalidation (s : EngineState) (w : Nat)
    (hc : getColumnCount w ≠ s.columnCount) (i : Nat) :
    (applyWidthChange s w).cache.measured i = none ∧
    (applyWidthChange s w).cache.get i = estimateSize ∧
    (applyWidthChange s w).columnCount = getColumnCount w := by
  unfold applyWidthChange
  rw [if_pos hc]
  exact ⟨rfl, rfl, rfl⟩

/-- C2 witness: a cache holding a measurement (row 2 at 340) under
`columnCount = 5`; shrinking the width to 900 (2 columns) leaves row 2
unmeasured and reading the estimate. -/
theorem c2_invalidation_witness :
    getColumnCount 900 ≠ 5 ∧
    (applyWidthChange ⟨5, ⟨fun j => if j = 2 then some 340 else none⟩⟩ 900).cache.get 2
      = estimateSize :=
  ⟨by decide,
    (c2_invalidation ⟨5, ⟨fun j => if j = 2 then some 340 else none⟩⟩ 900
      (by decide) 2).2.1⟩

/-! ### C7: non-positive measurements are discarded -/

/-- C7: a measurement event reporting a height ≤ 0 writes nothing: for
every row the cache keeps its previous entry (measured or unmeasured), so
the read-back value is unchanged. -/
theorem c7_nonpositive_discarded (sc : SizeCache) (i : Nat) (h : Int)
    (hnp : h ≤ 0) (j : Nat) :
    (sc.record i h).measured j = sc.measured j ∧
    (sc.record i h).get j = sc.get j := by
  unfold SizeCache.record
  rw [if_pos hnp]
  exact ⟨rfl, rfl⟩

/-- C7 witness: a glitch event of height −7 on row 4 leaves the previously
measured 320 in place. -/
theorem c7_nonpositive_discarded_witness :
    (-7 : Int) ≤ 0 ∧
    ((⟨fun j => if j = 4 then some 320 else none⟩ : SizeCache).record 4 (-7)).get 4
      = (⟨fun j => if j = 4 then some 320 else none⟩ : SizeCache).get 4 :=
  ⟨by decide,
    (c7_nonpositive_discarded ⟨fun j => if j = 4 then some 320 else none⟩ 4 (-7)
      (by decide) 4).2⟩

/-! ### C8: the empty collection -/

/-- C8: with zero items, at any width and any scroll state, the list view
renders no rows (the empty-state branch), the engine's visible window is
empty, and the total height is 0. -/
theorem c8_empty_collection (width : Nat) (h : Nat → Nat) (so vh : Nat) :
    renderedRows [] width h so vh = [] ∧
    getVirtualItems h (rowCountOf (List.length ([] : List Wod))
      (getColumnCount width)) so vh = [] ∧
    totalSize h (rowCountOf 0 (getColumnCount width)) = 0 := by
  have h0 : rowCountOf 0 (getColumnCount width) = 0 := rowCountOf_zero _
  refine ⟨?_, ?_, ?_⟩
  · unfold renderedRows
    rw [if_pos List.length_nil]
  · show getVirtualItems h (rowCountOf 0 (getColumnCount width)) so vh = []
    rw [h0]
    unfold getVirtualItems
    rw [if_pos rfl]
  · rw [h0]
    rfl

/-! ### C9: the search filter -/

theorem leadsWith_iff (needle hay : List Char) :
    leadsWith needle hay = true ↔ ∃ t, needle ++ t = hay := by
  induction needle generalizing hay with
  | nil => simp [leadsWith]
  | cons a as ih =>
    cases hay with
    | nil =>
      simp [leadsWith]
    | cons b bs =>
      rw [show leadsWith (a :: as) (b :: bs) = (a == b && leadsWith as bs) from rfl,
        Bool.and_eq_true, beq_iff_eq, ih]
      constructor
      · rintro ⟨rfl, t, rfl⟩
        exact ⟨t, rfl⟩
      · rintro ⟨t, ht⟩
        injection ht with h1 h2
        exact ⟨h1, t, h2⟩

theorem containsSeq_iff (hay needle : List Char) :
    containsSeq hay needle = true ↔ SubstrOf needle hay := by
  unfold SubstrOf
  induction hay with
  | nil =>
    rw [show containsSeq [] needle = (leadsWith needle [] || false) from rfl,
      Bool.or_false, leadsWith_iff]
    constructor
    · rintro ⟨t, ht⟩
      exact ⟨[], t, by simpa using ht⟩
    · rintro ⟨s, t, hst⟩
      simp only [List.append_eq_nil] at hst
      exact ⟨[], by simp [hst.1.2, hst.2]⟩
  | cons b bs ih =>
    rw [show containsSeq (b :: bs) needle
        = (leadsWith needle (b :: bs) || containsSeq bs needle) from rfl,
      Bool.or_eq_true, leadsWith_iff, ih]
    constructor
    · rintro (⟨t, ht⟩ | ⟨s, t, hst⟩)
      · exact ⟨[], t, by simpa using ht⟩
      · exact ⟨b :: s, t, by simp [← hst]⟩
    · rintro ⟨s, t, hst⟩
      cases s with
      | nil =>
        left
        exact ⟨t, by simpa using hst⟩
      | cons b' s' =>
        injection hst with h1 h2
        right
        exact ⟨s', t, h2⟩

/-- C9: the filter leaves the list untouched exactly when the (debounced)
term trims to empty (is empty or all-whitespace); otherwise the result is
an order-preserving subsequence of the records, containing precisely those
whose lowercased content has the lowercased term as a contiguous
substring. -/
theorem c9_filter (wods : List Wod) (term : List Char) :
    (filteredWods wods term).Sublist wods ∧
    (isWhitespaceOnly term = true → filteredWods wods term = wods) ∧
    (isWhitespaceOnly term = false →
      ∀ w, w ∈ filteredWods wods term ↔
        w ∈ wods ∧ SubstrOf (toLowerStr term) (toLowerStr w.content)) := by
  unfold filteredWods
  by_cases ht : isWhitespaceOnly term = true
  · rw [if_pos ht]
    exact ⟨List.Sublist.refl _, fun _ => rfl,
      fun hf => absurd ht (by simp [hf])⟩
  · rw [if_neg ht]
    refine ⟨List.filter_sublist _, fun hn => absurd hn ht, fun _ w => ?_⟩
    rw [List.mem_filter, containsSeq_iff]

/-- C9 witness: the one-letter term "a" is not whitespace-only, and the
record with content "ab" passes the filter precisely because "a" occurs in
its lowercased content. -/
theorem c9_filter_witness :
    isWhitespaceOnly ['a'] = false ∧
    ((⟨['d'], ['a', 'b']⟩ : Wod) ∈ filteredWods [⟨['d'], ['a', 'b']⟩] ['a'] ↔
      (⟨['d'], ['a', 'b']⟩ : Wod) ∈ ([⟨['d'], ['a', 'b']⟩] : List Wod) ∧
        SubstrOf (toLowerStr ['a']) (toLowerStr ['a', 'b'])) :=
  ⟨by decide,
    (c9_filter [⟨['d'], ['a', 'b']⟩] ['a']).2.2 (by decide) ⟨['d'], ['a', 'b']⟩⟩

/-! ### C10: the virtualized and plain variants agree -/

/-- C10: for any width and non-empty record list, concatenating the per-row
slices the virtualized list views render (rows `0 .. rowCount-1`, each row
`wods.slice(i*columnCount, i*columnCount + columnCount)`) yields exactly
the flat sequence the non-virtualized grid variant maps over. -/
theorem c10_variants_agree (width : Nat) (wods : List Wod)
    (_hne : wods ≠ []) :
    (partitionRows wods (getColumnCount width)).flatten = flatGridItems wods :=
  flatten_partitionRows (getColumnCount width) (one_le_getColumnCount width)
    wods.length wods le_rfl

/-- C10 witness: three records at width 900 (two columns, rows of 2 and 1)
flatten back to the plain grid's sequence. -/
theorem c10_variants_agree_witness :
    ([⟨['a'], ['b']⟩, ⟨['c'], ['d']⟩, ⟨['e'], ['f']⟩] : List Wod) ≠ [] ∧
    (partitionRows
        ([⟨['a'], ['b']⟩, ⟨['c'], ['d']⟩, ⟨['e'], ['f']⟩] : List Wod)
        (getColumnCount 900)).flatten
      = flatGridItems [⟨['a'], ['b']⟩, ⟨['c'], ['d']⟩, ⟨['e'], ['f']⟩] :=
  ⟨by decide,
    c10_variants_agree 900 [⟨['a'], ['b']⟩, ⟨['c'], ['d']⟩, ⟨['e'], ['f']⟩]
      (by decide)⟩

end WodTracker
